import Mathlib

/-!
Verification development for the `d2l_kinesis` telegraf output plugin.

The development shallowly embeds, in Lean, the core algorithms of the plugin:

* the gzip size estimator (`gZipSizeEstimator`) and the streaming record
  generator (`gzipKinesisRecordGenerator.Next`) from
  `plugins/outputs/d2l_kinesis/kinesisRecordSet.go`;
* the record model (`kinesisRecord` from `kinesisRecord.go`);
* the batch assembler (`putRecordBatches`), the delivery wrapper
  (`putRecords`) and the retry loop (`putRecordBatchesWithRetry`) from
  `D2LKinesisOutput.go`.

External collaborators are modelled abstractly: the serializer is represented
by the per-item serialization outcome (`Option Nat`, the serialized byte
length or a failure), the AWS delivery call by a function from a batch to an
optional per-record failure-flag list (`none` = transport-level error), and
the gzip compression stream by a `GZipWriterModel` whose soundness contract
(`SoundWriter`) is the worst-case-growth invariant the design document states
for the compressor.  The machine integers of the Go code are embedded as
`Nat`: all quantities involved are byte counts and list lengths, which the
Go code keeps non-negative and far below `2^63`, so no overflow arithmetic
is modelled.
-/

namespace D2LKinesis

/-- The record model from `kinesisRecord.go`: `Metrics` is the number of
source metrics folded into the record's entry, `RequestSize` the record's
contribution to a PutRecords request (`len(entry.Data) + len(partitionKey)`).
The compressed payload itself is not needed by the batch assembler, which
reads only these two fields. -/
structure kinesisRecord where
  Metrics : Nat
  RequestSize : Nat
deriving DecidableEq, Repr

/-- Sum of the `Metrics` fields of a list of records (the accumulation the
retry loop performs over the remaining failed records). -/
def sumMetrics (records : List kinesisRecord) : Nat :=
  (records.map (fun r => r.Metrics)).sum

/-- Sum of the `RequestSize` fields of a batch (the running
`batchRequestSize` accumulator of `putRecordBatches`). -/
def sumRequestSize (batch : List kinesisRecord) : Nat :=
  (batch.map (fun r => r.RequestSize)).sum

/-- A delivery capability: given the batch of records, returns `none` for a
transport-level failure of the whole call, or `some flags` where `flags[i]`
tells whether entry `i` came back with a non-nil `ErrorCode`.  This models
the `svc.PutRecords` call of `putRecords`. -/
def DeliveryFn : Type :=
  List kinesisRecord → Option (List Bool)

/-- `putRecords` from `D2LKinesisOutput.go`: submits one batch.  On a
transport error the whole batch is returned as failed; otherwise exactly the
entries flagged with an error code are returned. -/
def putRecords (deliver : DeliveryFn) (records : List kinesisRecord) :
    List kinesisRecord :=
  match deliver records with
  | none => records
  | some flags =>
      ((records.zip flags).filter (fun rf => rf.2)).map (fun rf => rf.1)

/-- The limits the batch assembler reads from the output plugin:
`maxRecordsPerRequest` and `maxRequestSize` (`awsMaxRecordsPerRequest` and
`awsMaxRequestSize` in production). -/
structure BatchConfig where
  maxRecordsPerRequest : Nat
  maxRequestSize : Nat
deriving DecidableEq, Repr

/-- A record iterator is embedded as the sequence of outcomes its `Next`
method produces before the end-marker: `Except.error ()` for an iterator
error, `Except.ok r` for a yielded record.  `createKinesisRecordSet`
(`kinesisRecordSet.go`) replays a fixed record list and never errors. -/
def createKinesisRecordSet (records : List kinesisRecord) :
    List (Except Unit kinesisRecord) :=
  records.map Except.ok

/-- The loop body of `putRecordBatches`, embedded as structural recursion on
the remaining iterator outcomes.  State: the running `batch`, its record
count `cnt` (`batchRecordCount`) and cumulative size `size`
(`batchRequestSize`).  Returns the accumulated failed records together with
the trace of batches submitted to the delivery capability (ghost data: the
Go code does not store the trace, but every `putRecords` call appears in it
in order). -/
def putRecordBatchesLoop (cfg : BatchConfig) (deliver : DeliveryFn) :
    List (Except Unit kinesisRecord) → List kinesisRecord → Nat → Nat →
    Except Unit (List kinesisRecord × List (List kinesisRecord))
  | [], batch, cnt, _size =>
      if cnt > 0 then
        Except.ok (putRecords deliver batch, [batch])
      else
        Except.ok ([], [])
  | Except.error _ :: _, _, _, _ => Except.error ()
  | Except.ok record :: rest, batch, cnt, size =>
      let rrs := record.RequestSize
      if size + rrs > cfg.maxRequestSize then
        -- size-limit check fires: submit the current batch (even when it is
        -- empty), clear it, then add the record to a fresh batch
        let failed0 := putRecords deliver batch
        if 1 ≥ cfg.maxRecordsPerRequest then
          match putRecordBatchesLoop cfg deliver rest [] 0 0 with
          | Except.error e => Except.error e
          | Except.ok (fr, tr) =>
              Except.ok (failed0 ++ putRecords deliver [record] ++ fr,
                batch :: [record] :: tr)
        else
          match putRecordBatchesLoop cfg deliver rest [record] 1 rrs with
          | Except.error e => Except.error e
          | Except.ok (fr, tr) => Except.ok (failed0 ++ fr, batch :: tr)
      else
        if cnt + 1 ≥ cfg.maxRecordsPerRequest then
          match putRecordBatchesLoop cfg deliver rest [] 0 0 with
          | Except.error e => Except.error e
          | Except.ok (fr, tr) =>
              Except.ok (putRecords deliver (batch ++ [record]) ++ fr,
                (batch ++ [record]) :: tr)
        else
          putRecordBatchesLoop cfg deliver rest (batch ++ [record]) (cnt + 1)
            (size + rrs)

/-- `putRecordBatches` from `D2LKinesisOutput.go`: drains the record iterator
into batches, submitting each to the delivery capability, and returns all
failed records (plus the ghost trace of submitted batches).  An iterator
error aborts with that error. -/
def putRecordBatches (cfg : BatchConfig) (deliver : DeliveryFn)
    (source : List (Except Unit kinesisRecord)) :
    Except Unit (List kinesisRecord × List (List kinesisRecord)) :=
  putRecordBatchesLoop cfg deliver source [] 0 0

/-- One terminal diagnostic of the retry loop: the `Errorf` reporting
`failedCount` records dropped after `attempt` attempts with `dropped`
metrics lost. -/
structure TerminalReport where
  failedCount : Nat
  attempt : Nat
  dropped : Nat
deriving DecidableEq, Repr

/-- The loop of `putRecordBatchesWithRetry`: drains the current iterator,
stops on iterator error (propagated) or on an empty failed list (success);
otherwise increments `attempt` and either drops the remaining records with a
single terminal report (once `attempt` exceeds `maxRetries`) or re-iterates
over a replay set of the failed records.  Returns the outcome together with
the list of terminal reports emitted. -/
def retryLoop (cfg : BatchConfig) (deliver : DeliveryFn) (maxRetries : Nat)
    (source : List (Except Unit kinesisRecord)) (attempt : Nat) :
    Except Unit Unit × List TerminalReport :=
  match putRecordBatches cfg deliver source with
  | Except.error e => (Except.error e, [])
  | Except.ok (failedRecords, _) =>
      if _hempty : failedRecords.length = 0 then
        (Except.ok (), [])
      else
        if _hmax : attempt + 1 > maxRetries then
          (Except.ok (),
            [⟨failedRecords.length, attempt + 1, sumMetrics failedRecords⟩])
        else
          retryLoop cfg deliver maxRetries
            (createKinesisRecordSet failedRecords) (attempt + 1)
termination_by maxRetries + 1 - attempt
decreasing_by simp_wf; omega

/-- `putRecordBatchesWithRetry` from `D2LKinesisOutput.go`, starting at
attempt 0. -/
def putRecordBatchesWithRetry (cfg : BatchConfig) (deliver : DeliveryFn)
    (maxRetries : Nat) (source : List (Except Unit kinesisRecord)) :
    Except Unit Unit × List TerminalReport :=
  retryLoop cfg deliver maxRetries source 0

/-- `gzipHeaderSize` from `kinesisRecordSet.go`. -/
def gzipHeaderSize : Nat := 10

/-- `gzipFooterSize` from `kinesisRecordSet.go`. -/
def gzipFooterSize : Nat := 8

/-- The gzip worst-case growth the estimator assumes for `n` raw pending
bytes: the bytes themselves plus 5 bytes of block overhead for each started
16383-byte block (the `bytesCount + blocksOverhead` part of
`MaxPotentialSizeWith`). -/
def growth (n : Nat) : Nat := n + 5 * (n / 16383 + 1)

/-- The size estimator state from `kinesisRecordSet.go` (field names as in
the source, including the `bytesCommited` spelling). -/
structure gZipSizeEstimator where
  bytesCommited : Nat
  bytesPending : Nat
deriving DecidableEq, Repr

/-- `createGZipSizeEstimator`: fresh estimator accounting for the gzip
header and footer. -/
def createGZipSizeEstimator : gZipSizeEstimator :=
  { bytesCommited := gzipHeaderSize + gzipFooterSize, bytesPending := 0 }

/-- `RecordBytes`: account for `bytes` raw bytes written since the last
flush. -/
def gZipSizeEstimator.RecordBytes (e : gZipSizeEstimator) (bytes : Nat) :
    gZipSizeEstimator :=
  { e with bytesPending := e.bytesPending + bytes }

/-- `Commit`: after a flush whose resulting buffer length is `bytes`, the
committed size is that length plus the footer allowance, and no bytes are
pending. -/
def gZipSizeEstimator.Commit (_e : gZipSizeEstimator) (bytes : Nat) :
    gZipSizeEstimator :=
  { bytesCommited := bytes + gzipFooterSize, bytesPending := 0 }

/-- `MaxPotentialSizeWith`: upper bound on the final compressed size if
`additionalBytes` more raw bytes were written.  The Go source computes the
block count as `int(math.Floor(float64(bytesCount)/16383) + 1)`; for the
non-negative machine integers involved this is exactly natural-number
division, which is how it is embedded here (the idealised real-arithmetic
floor form is proven equal below). -/
def gZipSizeEstimator.MaxPotentialSizeWith (e : gZipSizeEstimator)
    (additionalBytes : Nat) : Nat :=
  let bytesCount := e.bytesPending + additionalBytes
  let blocksOverhead := 5 * (bytesCount / 16383 + 1)
  e.bytesCommited + bytesCount + blocksOverhead

/-- Abstract model of the mutable gzip stream (`bytes.Buffer` plus
`gzip.Writer`) owned by the record generator.  `init` is the state right
after `buffer.Reset(); writer.Reset(buffer)`; `write σ n` writes an `n`-byte
chunk; `flush σ` is `writer.Flush()`; `flushedLen σ` is `buffer.Len()`
(meaningful right after a flush); `closeLen σ` is the length of
`buffer.Bytes()` after `writer.Close()` from state `σ`.  Only the byte
lengths matter to the claims, so payload contents are not modelled. -/
structure GZipWriterModel where
  State : Type
  init : State
  write : State → Nat → State
  flush : State → State
  flushedLen : State → Nat
  closeLen : State → Nat

/-- The estimator-soundness invariant the design document states for the
compressor: from a stream state `σ` accounted for by `C` committed and `p`
pending bytes, the true final compressed size never exceeds
`C + growth p`, and flushing then re-committing only tightens that bound. -/
def GZipWriterModel.Inv (c : GZipWriterModel) (σ : c.State) (C p : Nat) :
    Prop :=
  c.closeLen σ ≤ C + growth p ∧
    c.flushedLen (c.flush σ) + (gzipFooterSize + growth 0) ≤ C + growth p

/-- A compressor model is sound when the invariant holds initially (with the
header-plus-footer allowance of a fresh estimator) and is preserved by
writes (moving the written bytes into the pending account) and by
flush-plus-commit (resetting the committed account to the flushed length
plus the footer allowance).  This is the contract `compress/gzip` is assumed
to satisfy; the generator never measures it directly. -/
structure SoundWriter (c : GZipWriterModel) : Prop where
  init_inv : c.Inv c.init (gzipHeaderSize + gzipFooterSize) 0
  write_inv : ∀ σ C p n, c.Inv σ C p → c.Inv (c.write σ n) C (p + n)
  flush_inv : ∀ σ C p, c.Inv σ C p →
    c.Inv (c.flush σ) (c.flushedLen (c.flush σ) + gzipFooterSize) 0

/-- A record yielded by the generator: the compressed payload length, the
`Metrics` count passed to `createKinesisRecord`, and (ghost) the indices of
the source items folded into the record. -/
structure GenRecord where
  payloadLen : Nat
  Metrics : Nat
  itemIdxs : List Nat
deriving DecidableEq, Repr

/-- The generator state from `kinesisRecordSet.go`.  The item sequence is
embedded through the serializer capability: `metrics` holds, per source
metric, the serialization outcome (`none` = serialization failure, `some n`
= `n` serialized bytes). -/
structure gzipKinesisRecordGenerator where
  maxRecordSize : Nat
  index : Nat
  metricsCount : Nat
  metrics : List (Option Nat)
deriving DecidableEq, Repr

/-- `Reset`: store the new item sequence and restart at index 0. -/
def gzipKinesisRecordGenerator.Reset (g : gzipKinesisRecordGenerator)
    (metrics : List (Option Nat)) : gzipKinesisRecordGenerator :=
  { g with index := 0, metrics := metrics, metricsCount := metrics.length }

/-- Result of the `Next` loop: the yielded record with the new saved index
(or `none` for the end-marker, which leaves the index unchanged), plus the
ghost lists of the indices dropped as oversized and of the indices whose
serialization failed during this call. -/
structure NextOut where
  yielded : Option (GenRecord × Nat)
  dropped : List Nat
  failed : List Nat
deriving DecidableEq, Repr

/-- The `for` loop of `gzipKinesisRecordGenerator.Next`, embedded as
structural recursion on the remaining items `rem` (the suffix of the item
list starting at absolute index `idx`).  `σ` is the compression stream,
`est` the estimator created at the start of the call, and `acc` the indices
of the items written into the current record (`recordMetricCount` is
`acc.length`). -/
def nextLoop (c : GZipWriterModel) (max : Nat) :
    List (Option Nat) → Nat → c.State → gZipSizeEstimator → List Nat →
    NextOut
  | [], idx, σ, _est, acc =>
      if acc.length > 0 then
        ⟨some (⟨c.closeLen σ, acc.length, acc⟩, idx + 1), [], []⟩
      else
        ⟨none, [], []⟩
  | none :: rest, idx, σ, est, acc =>
      -- serialization failure: log and continue
      let out := nextLoop c max rest (idx + 1) σ est acc
      { out with failed := idx :: out.failed }
  | some bc :: rest, idx, σ, est, acc =>
      if est.MaxPotentialSizeWith bc > max then
        let σ1 := c.flush σ
        let est1 := est.Commit (c.flushedLen σ1)
        if est1.MaxPotentialSizeWith bc > max then
          if acc.length = 0 then
            -- dropping excessively large metric
            let out := nextLoop c max rest (idx + 1) σ1 est1 acc
            { out with dropped := idx :: out.dropped }
          else
            ⟨some (⟨c.closeLen σ1, acc.length, acc⟩, idx), [], []⟩
        else
          nextLoop c max rest (idx + 1) (c.write σ1 bc)
            (est1.RecordBytes bc) (acc ++ [idx])
      else
        nextLoop c max rest (idx + 1) (c.write σ bc)
          (est.RecordBytes bc) (acc ++ [idx])

/-- Result of one `Next` call: the yielded record (or `none` for the
end-marker), the updated generator state, and the ghost drop/failure index
lists of the call. -/
structure NextRes where
  rec? : Option GenRecord
  st : gzipKinesisRecordGenerator
  dropped : List Nat
  failed : List Nat
deriving DecidableEq, Repr

/-- `gzipKinesisRecordGenerator.Next`: returns the end-marker once the index
has passed the item count; otherwise resets the buffer and writer, creates a
fresh estimator and scans items from the saved index. -/
def gzipKinesisRecordGenerator.Next (c : GZipWriterModel)
    (g : gzipKinesisRecordGenerator) : NextRes :=
  if g.index ≥ g.metricsCount then
    ⟨none, g, [], []⟩
  else
    let out := nextLoop c g.maxRecordSize (g.metrics.drop g.index) g.index
      c.init createGZipSizeEstimator []
    match out.yielded with
    | none => ⟨none, g, out.dropped, out.failed⟩
    | some (r, ni) => ⟨some r, { g with index := ni }, out.dropped, out.failed⟩

/-- Repeatedly call `Next` until the end-marker, collecting the yielded
records and the ghost drop/failure lists.  The fuel argument dominates the
number of `Next` calls; `drain` supplies enough fuel (each yielding call
strictly advances the index). -/
def drainAux (c : GZipWriterModel) :
    Nat → gzipKinesisRecordGenerator →
    List GenRecord × List Nat × List Nat
  | 0, _ => ([], [], [])
  | fuel + 1, g =>
      let res := gzipKinesisRecordGenerator.Next c g
      match res.rec? with
      | none => ([], res.dropped, res.failed)
      | some r =>
          let rest := drainAux c fuel res.st
          (r :: rest.1, res.dropped ++ rest.2.1, res.failed ++ rest.2.2)

/-- Drain the generator to exhaustion. -/
def drain (c : GZipWriterModel) (g : gzipKinesisRecordGenerator) :
    List GenRecord × List Nat × List Nat :=
  drainAux c (g.metricsCount + 1 - g.index) g

/-- Concatenation of the ghost item-index lists of the drained records. -/
def joinIdxs (records : List GenRecord) : List Nat :=
  (records.map (fun r => r.itemIdxs)).flatten

/-- Sum of the `Metrics` counts of the drained records. -/
def sumGenMetrics (records : List GenRecord) : Nat :=
  (records.map (fun r => r.Metrics)).sum

/-- The trivial compressor model used to witness the compressor-soundness
hypotheses on concrete runs: its output lengths are zero, which satisfies
every worst-case bound. -/
def zeroWriter : GZipWriterModel where
  State := Unit
  init := ()
  write := fun _ _ => ()
  flush := fun _ => ()
  flushedLen := fun _ => 0
  closeLen := fun _ => 0

/-!
### Helper lemmas
-/

/-- `MaxPotentialSizeWith` written with the estimator's `growth` bound. -/
theorem maxPotentialSizeWith_eq (e : gZipSizeEstimator) (a : Nat) :
    e.MaxPotentialSizeWith a = e.bytesCommited + growth (e.bytesPending + a) := by
  simp [gZipSizeEstimator.MaxPotentialSizeWith, growth]
  ring

/-- `growth` is monotone. -/
theorem growth_mono {m n : Nat} (h : m ≤ n) : growth m ≤ growth n := by
  have hdiv : m / 16383 ≤ n / 16383 := Nat.div_le_div_right h
  simp only [growth]
  omega

/-- Characterization of a successful `putRecordBatchesLoop` run: the
submitted batches concatenate to the current batch followed by all records
the iterator yields, and the returned failed list is the concatenation of
the per-batch results of `putRecords`. -/
theorem putRecordBatchesLoop_ok (cfg : BatchConfig) (deliver : DeliveryFn)
    (source : List (Except Unit kinesisRecord)) :
    ∀ (batch : List kinesisRecord) (cnt size : Nat)
      (fl : List kinesisRecord) (tr : List (List kinesisRecord)),
      cnt = batch.length →
      putRecordBatchesLoop cfg deliver source batch cnt size =
        Except.ok (fl, tr) →
      fl = (tr.map (putRecords deliver)).flatten ∧
        tr.flatten = batch ++ source.filterMap (fun e => e.toOption) := by
  induction source with
  | nil =>
      intro batch cnt size fl tr hcnt h
      simp only [putRecordBatchesLoop] at h
      split at h
      · obtain ⟨hfl, htr⟩ := Prod.mk.injEq .. ▸ Except.ok.injEq .. ▸ h
        subst hfl; subst htr
        simp
      · have hb : batch = [] := by
          have : batch.length = 0 := by omega
          exact List.length_eq_zero.mp this
        obtain ⟨hfl, htr⟩ := Prod.mk.injEq .. ▸ Except.ok.injEq .. ▸ h
        subst hfl; subst htr
        simp [hb]
  | cons e rest ih =>
      intro batch cnt size fl tr hcnt h
      match e with
      | Except.error u =>
          simp only [putRecordBatchesLoop] at h
          exact absurd h (by simp)
      | Except.ok record =>
          simp only [putRecordBatchesLoop] at h
          split at h
          · -- size-limit flush
            split at h
            · -- count limit also hit: batch1 = [record] submitted at once
              cases hrec : putRecordBatchesLoop cfg deliver rest [] 0 0 with
              | error e0 => rw [hrec] at h; simp at h
              | ok p =>
                  obtain ⟨fr, tr'⟩ := p
                  rw [hrec] at h
                  simp only [] at h
                  obtain ⟨hfl, htr⟩ := Prod.mk.injEq .. ▸ Except.ok.injEq .. ▸ h
                  subst hfl; subst htr
                  obtain ⟨ih1, ih2⟩ := ih [] 0 0 fr tr' rfl hrec
                  subst ih1
                  simp [ih2, Except.toOption]
            · cases hrec : putRecordBatchesLoop cfg deliver rest [record] 1
                record.RequestSize with
              | error e0 => rw [hrec] at h; simp at h
              | ok p =>
                  obtain ⟨fr, tr'⟩ := p
                  rw [hrec] at h
                  simp only [] at h
                  obtain ⟨hfl, htr⟩ := Prod.mk.injEq .. ▸ Except.ok.injEq .. ▸ h
                  subst hfl; subst htr
                  obtain ⟨ih1, ih2⟩ := ih [record] 1 record.RequestSize fr tr'
                    rfl hrec
                  subst ih1
                  simp [ih2, Except.toOption]
          · split at h
            · -- count limit hit after adding
              cases hrec : putRecordBatchesLoop cfg deliver rest [] 0 0 with
              | error e0 => rw [hrec] at h; simp at h
              | ok p =>
                  obtain ⟨fr, tr'⟩ := p
                  rw [hrec] at h
                  simp only [] at h
                  obtain ⟨hfl, htr⟩ := Prod.mk.injEq .. ▸ Except.ok.injEq .. ▸ h
                  subst hfl; subst htr
                  obtain ⟨ih1, ih2⟩ := ih [] 0 0 fr tr' rfl hrec
                  subst ih1
                  simp [ih2, Except.toOption]
            · -- plain accumulation
              obtain ⟨ih1, ih2⟩ := ih (batch ++ [record]) (cnt + 1)
                (size + record.RequestSize) fl tr (by simp [hcnt]) h
              subst ih1
              simp [ih2, Except.toOption]

/-- The invariant a batch may satisfy when submitted: its cumulative request
size is within the limit, unless it is a single record whose own request
size alone exceeds the limit. -/
def BatchSizeOk (S : Nat) (b : List kinesisRecord) : Prop :=
  sumRequestSize b ≤ S ∨ ∃ r, b = [r] ∧ S < r.RequestSize

/-- Invariant lemma for `putRecordBatchesLoop`: provided the running batch
is consistent with its counters, strictly below the record-count limit, and
satisfies the size invariant, every batch submitted during the rest of the
drain has at most `maxRecordsPerRequest` records and satisfies the size
invariant. -/
theorem putRecordBatchesLoop_batches (cfg : BatchConfig)
    (deliver : DeliveryFn) (source : List (Except Unit kinesisRecord)) :
    ∀ (batch : List kinesisRecord) (cnt size : Nat)
      (fl : List kinesisRecord) (tr : List (List kinesisRecord)),
      cnt = batch.length →
      size = sumRequestSize batch →
      cnt < cfg.maxRecordsPerRequest →
      BatchSizeOk cfg.maxRequestSize batch →
      putRecordBatchesLoop cfg deliver source batch cnt size =
        Except.ok (fl, tr) →
      ∀ b ∈ tr, b.length ≤ cfg.maxRecordsPerRequest ∧
        BatchSizeOk cfg.maxRequestSize b := by
  induction source with
  | nil =>
      intro batch cnt size fl tr hcnt hsize hlt hok h
      simp only [putRecordBatchesLoop] at h
      split at h
      · obtain ⟨hfl, htr⟩ := Prod.mk.injEq .. ▸ Except.ok.injEq .. ▸ h
        subst hfl; subst htr
        intro b hb
        simp only [List.mem_singleton] at hb
        subst hb
        exact ⟨by omega, hok⟩
      · obtain ⟨hfl, htr⟩ := Prod.mk.injEq .. ▸ Except.ok.injEq .. ▸ h
        subst hfl; subst htr
        intro b hb
        simp at hb
  | cons e rest ih =>
      intro batch cnt size fl tr hcnt hsize hlt hok h
      match e with
      | Except.error u =>
          simp only [putRecordBatchesLoop] at h
          exact absurd h (by simp)
      | Except.ok record =>
          have hsingle : BatchSizeOk cfg.maxRequestSize [record] := by
            by_cases hfit : record.RequestSize ≤ cfg.maxRequestSize
            · exact Or.inl (by simp [sumRequestSize, hfit])
            · exact Or.inr ⟨record, rfl, by omega⟩
          simp only [putRecordBatchesLoop] at h
          split at h
          · -- size-limit flush branch
            rename_i hflush
            split at h
            · rename_i hone
              cases hrec : putRecordBatchesLoop cfg deliver rest [] 0 0 with
              | error e0 => rw [hrec] at h; simp at h
              | ok p =>
                  obtain ⟨fr, tr'⟩ := p
                  rw [hrec] at h
                  simp only [] at h
                  obtain ⟨hfl, htr⟩ := Prod.mk.injEq .. ▸ Except.ok.injEq .. ▸ h
                  subst hfl; subst htr
                  intro b hb
                  simp only [List.mem_cons] at hb
                  rcases hb with hb | hb | hb
                  · subst hb; exact ⟨by omega, hok⟩
                  · subst hb; exact ⟨by simp; omega, hsingle⟩
                  · exact ih [] 0 0 fr tr' rfl rfl (by omega)
                      (Or.inl (by simp [sumRequestSize])) hrec b hb
            · rename_i hone
              cases hrec : putRecordBatchesLoop cfg deliver rest [record] 1
                record.RequestSize with
              | error e0 => rw [hrec] at h; simp at h
              | ok p =>
                  obtain ⟨fr, tr'⟩ := p
                  rw [hrec] at h
                  simp only [] at h
                  obtain ⟨hfl, htr⟩ := Prod.mk.injEq .. ▸ Except.ok.injEq .. ▸ h
                  subst hfl; subst htr
                  intro b hb
                  simp only [List.mem_cons] at hb
                  rcases hb with hb | hb
                  · subst hb; exact ⟨by omega, hok⟩
                  · exact ih [record] 1 record.RequestSize fr tr' rfl
                      (by simp [sumRequestSize]) (by omega) hsingle hrec b hb
          · -- no-flush branch: the record fits in the running batch
            rename_i hflush
            have hsum : sumRequestSize (batch ++ [record]) =
                sumRequestSize batch + record.RequestSize := by
              simp [sumRequestSize]
            split at h
            · rename_i hcap
              cases hrec : putRecordBatchesLoop cfg deliver rest [] 0 0 with
              | error e0 => rw [hrec] at h; simp at h
              | ok p =>
                  obtain ⟨fr, tr'⟩ := p
                  rw [hrec] at h
                  simp only [] at h
                  obtain ⟨hfl, htr⟩ := Prod.mk.injEq .. ▸ Except.ok.injEq .. ▸ h
                  subst hfl; subst htr
                  intro b hb
                  simp only [List.mem_cons] at hb
                  rcases hb with hb | hb
                  · subst hb
                    refine ⟨by simp [← hcnt]; omega, Or.inl ?_⟩
                    omega
                  · exact ih [] 0 0 fr tr' rfl rfl (by omega)
                      (Or.inl (by simp [sumRequestSize])) hrec b hb
            · rename_i hcap
              exact ih (batch ++ [record]) (cnt + 1)
                (size + record.RequestSize) fl tr (by simp [hcnt])
                (by omega) (by omega) (Or.inl (by omega)) h

/-- If every record the iterator yields fits within the request-size limit
on its own, no submitted batch is empty (the batch flushed by the size-limit
check must then hold at least one record). -/
theorem putRecordBatchesLoop_nonempty (cfg : BatchConfig)
    (deliver : DeliveryFn) (source : List (Except Unit kinesisRecord)) :
    ∀ (batch : List kinesisRecord) (cnt size : Nat)
      (fl : List kinesisRecord) (tr : List (List kinesisRecord)),
      cnt = batch.length →
      (batch = [] → size = 0) →
      (∀ e ∈ source, ∀ r : kinesisRecord, e = Except.ok r →
        r.RequestSize ≤ cfg.maxRequestSize) →
      putRecordBatchesLoop cfg deliver source batch cnt size =
        Except.ok (fl, tr) →
      ∀ b ∈ tr, b ≠ [] := by
  induction source with
  | nil =>
      intro batch cnt size fl tr hcnt hzero _hfit h
      simp only [putRecordBatchesLoop] at h
      split at h
      · obtain ⟨hfl, htr⟩ := Prod.mk.injEq .. ▸ Except.ok.injEq .. ▸ h
        subst hfl; subst htr
        intro b hb
        simp only [List.mem_singleton] at hb
        subst hb
        intro hemp
        rw [hemp] at hcnt
        simp at hcnt
        omega
      · obtain ⟨hfl, htr⟩ := Prod.mk.injEq .. ▸ Except.ok.injEq .. ▸ h
        subst hfl; subst htr
        intro b hb
        simp at hb
  | cons e rest ih =>
      intro batch cnt size fl tr hcnt hzero hfit h
      match e with
      | Except.error u =>
          simp only [putRecordBatchesLoop] at h
          exact absurd h (by simp)
      | Except.ok record =>
          have hrfit : record.RequestSize ≤ cfg.maxRequestSize :=
            hfit (Except.ok record) (List.mem_cons_self _ _) record rfl
          have hfit' : ∀ e ∈ rest, ∀ r : kinesisRecord, e = Except.ok r →
              r.RequestSize ≤ cfg.maxRequestSize :=
            fun e he r her => hfit e (List.mem_cons_of_mem _ he) r her
          simp only [putRecordBatchesLoop] at h
          split at h
          · -- size-limit flush branch: the flushed batch cannot be empty
            rename_i hflush
            have hbne : batch ≠ [] := by
              intro hemp
              have := hzero hemp
              omega
            split at h
            · cases hrec : putRecordBatchesLoop cfg deliver rest [] 0 0 with
              | error e0 => rw [hrec] at h; simp at h
              | ok p =>
                  obtain ⟨fr, tr'⟩ := p
                  rw [hrec] at h
                  simp only [] at h
                  obtain ⟨hfl, htr⟩ := Prod.mk.injEq .. ▸ Except.ok.injEq .. ▸ h
                  subst hfl; subst htr
                  intro b hb
                  simp only [List.mem_cons] at hb
                  rcases hb with hb | hb | hb
                  · subst hb; exact hbne
                  · subst hb; simp
                  · exact ih [] 0 0 fr tr' rfl (fun _ => rfl) hfit' hrec b hb
            · cases hrec : putRecordBatchesLoop cfg deliver rest [record] 1
                record.RequestSize with
              | error e0 => rw [hrec] at h; simp at h
              | ok p =>
                  obtain ⟨fr, tr'⟩ := p
                  rw [hrec] at h
                  simp only [] at h
                  obtain ⟨hfl, htr⟩ := Prod.mk.injEq .. ▸ Except.ok.injEq .. ▸ h
                  subst hfl; subst htr
                  intro b hb
                  simp only [List.mem_cons] at hb
                  rcases hb with hb | hb
                  · subst hb; exact hbne
                  · exact ih [record] 1 record.RequestSize fr tr' rfl
                      (by simp) hfit' hrec b hb
          · rename_i hflush
            split at h
            · cases hrec : putRecordBatchesLoop cfg deliver rest [] 0 0 with
              | error e0 => rw [hrec] at h; simp at h
              | ok p =>
                  obtain ⟨fr, tr'⟩ := p
                  rw [hrec] at h
                  simp only [] at h
                  obtain ⟨hfl, htr⟩ := Prod.mk.injEq .. ▸ Except.ok.injEq .. ▸ h
                  subst hfl; subst htr
                  intro b hb
                  simp only [List.mem_cons] at hb
                  rcases hb with hb | hb
                  · subst hb; simp
                  · exact ih [] 0 0 fr tr' rfl (fun _ => rfl) hfit' hrec b hb
            · exact ih (batch ++ [record]) (cnt + 1)
                (size + record.RequestSize) fl tr (by simp [hcnt])
                (by simp) hfit' h

/-- Any `retryLoop` run emits at most one terminal report. -/
theorem retryLoop_reports_le_one (cfg : BatchConfig) (deliver : DeliveryFn)
    (maxRetries : Nat) :
    ∀ (source : List (Except Unit kinesisRecord)) (attempt : Nat),
      ((retryLoop cfg deliver maxRetries source attempt).2).length ≤ 1 := by
  intro source attempt
  induction source, attempt using retryLoop.induct cfg deliver maxRetries with
  | case1 source attempt e heq =>
      unfold retryLoop
      rw [heq]
      simp
  | case2 source attempt failedRecords tr heq hempty =>
      unfold retryLoop
      rw [heq]
      simp [hempty]
  | case3 source attempt failedRecords tr heq hempty hmax =>
      unfold retryLoop
      rw [heq]
      simp [hempty, hmax]
  | case4 source attempt failedRecords tr heq hempty hmax ihr =>
      unfold retryLoop
      rw [heq]
      simp only [hempty, hmax, dite_false, dite_true]
      exact ihr

/-- The trivial compressor model is sound. -/
theorem zeroWriter_sound : SoundWriter zeroWriter := by
  constructor
  · constructor
    · simp [zeroWriter, growth, gzipHeaderSize, gzipFooterSize]
    · simp [zeroWriter, growth, gzipHeaderSize, gzipFooterSize]
  · intro σ C p n h
    obtain ⟨_, h2⟩ := h
    constructor
    · simp [zeroWriter]
    · have := growth_mono (Nat.le_add_right p n)
      simp [zeroWriter] at h2 ⊢
      omega
  · intro σ C p _h
    constructor
    · simp [zeroWriter]
    · simp [zeroWriter]

/-- Replaying a record list through `createKinesisRecordSet` and collecting
the yielded records gives back the list. -/
theorem filterMap_toOption_map_ok (records : List kinesisRecord) :
    List.filterMap (fun e => Except.toOption e)
      (records.map (Except.ok (ε := Unit))) = records := by
  induction records with
  | nil => rfl
  | cons r rs ih => exact congrArg (List.cons r) ih

/-- Payload bound for the `Next` loop: if the estimator invariant holds for
the current stream and, whenever the current record is non-empty, the
estimator's bound is within `max`, then any record the loop yields has a
payload of at most `max` bytes. -/
theorem nextLoop_payload_le (c : GZipWriterModel) (hs : SoundWriter c)
    (max : Nat) :
    ∀ (rem : List (Option Nat)) (idx : Nat) (σ : c.State)
      (est : gZipSizeEstimator) (acc : List Nat),
      c.Inv σ est.bytesCommited est.bytesPending →
      (acc ≠ [] → est.bytesCommited + growth est.bytesPending ≤ max) →
      ∀ (r : GenRecord) (ni : Nat),
        (nextLoop c max rem idx σ est acc).yielded = some (r, ni) →
        r.payloadLen ≤ max := by
  intro rem
  induction rem with
  | nil =>
      intro idx σ est acc hinv hmax r ni h
      simp only [nextLoop] at h
      split at h
      · rename_i hlen
        simp only [Option.some.injEq, Prod.mk.injEq] at h
        obtain ⟨hr, _⟩ := h
        subst hr
        have hacc : acc ≠ [] := by
          intro he
          rw [he] at hlen
          simp at hlen
        exact le_trans hinv.1 (hmax hacc)
      · simp at h
  | cons item rest ih =>
      intro idx σ est acc hinv hmax r ni h
      match item with
      | none =>
          simp only [nextLoop] at h
          exact ih (idx + 1) σ est acc hinv hmax r ni h
      | some bc =>
          simp only [nextLoop] at h
          split at h
          · -- estimator rejects: flush and commit
            rename_i hchk1
            have hinv1 := hs.flush_inv σ est.bytesCommited est.bytesPending
              hinv
            split at h
            · rename_i hchk2
              split at h
              · -- record still empty: drop the oversized item
                rename_i hempty
                have hacc : acc = [] := List.length_eq_zero.mp hempty
                refine ih (idx + 1) (c.flush σ)
                  (est.Commit (c.flushedLen (c.flush σ))) acc ?_ ?_ r ni h
                · exact hinv1
                · intro hne
                  exact absurd hacc hne
              · -- yield the record built so far
                rename_i hempty
                simp only [Option.some.injEq, Prod.mk.injEq] at h
                obtain ⟨hr, _⟩ := h
                subst hr
                have hacc : acc ≠ [] := by
                  intro he
                  rw [he] at hempty
                  simp at hempty
                have h1 : c.closeLen (c.flush σ) ≤
                    (c.flushedLen (c.flush σ) + gzipFooterSize) + growth 0 :=
                  hinv1.1
                have h2 : c.flushedLen (c.flush σ) +
                    (gzipFooterSize + growth 0) ≤
                    est.bytesCommited + growth est.bytesPending := hinv.2
                have h3 := hmax hacc
                simp only [GenRecord.payloadLen]
                omega
            · -- fits after the commit: write into the flushed stream
              rename_i hchk2
              rw [maxPotentialSizeWith_eq] at hchk2
              simp only [gZipSizeEstimator.Commit] at hchk2
              refine ih (idx + 1) (c.write (c.flush σ) bc)
                ((est.Commit (c.flushedLen (c.flush σ))).RecordBytes bc)
                (acc ++ [idx]) ?_ ?_ r ni h
              · exact hs.write_inv (c.flush σ)
                  (c.flushedLen (c.flush σ) + gzipFooterSize) 0 bc hinv1
              · intro _
                simp only [gZipSizeEstimator.RecordBytes,
                  gZipSizeEstimator.Commit]
                omega
          · -- fits immediately: write into the current stream
            rename_i hchk1
            rw [maxPotentialSizeWith_eq] at hchk1
            refine ih (idx + 1) (c.write σ bc) (est.RecordBytes bc)
              (acc ++ [idx]) ?_ ?_ r ni h
            · exact hs.write_inv σ est.bytesCommited est.bytesPending bc hinv
            · intro _
              simp only [gZipSizeEstimator.RecordBytes]
              omega

/-- Classification of one `Next` loop run.  Relative to the full item list
`metrics` (with `rem` the suffix starting at absolute index `idx`), the loop
classifies a prefix of the remaining items: the ghost `dropped` list holds
indices of successfully-serialized items, the ghost `failed` list holds
indices of items whose serialization failed, and if a record is yielded, its
item indices extend `acc` by the freshly written indices `w`.  The written,
dropped and failed indices of the call partition the scanned index range
`range' idx cov`; on a yield the saved index is `idx + cov` (the unconsumed
item that triggered the cut) or `idx + cov + 1` (end of items, with
`cov = rem.length`).  Every written item was admitted by the estimator, so
its serialized size `s` obeys `gzipFooterSize + growth s ≤ max`. -/
theorem nextLoop_classify (c : GZipWriterModel) (max : Nat)
    (metrics : List (Option Nat)) :
    ∀ (rem : List (Option Nat)) (idx : Nat) (σ : c.State)
      (est : gZipSizeEstimator) (acc : List Nat) (out : NextOut),
      nextLoop c max rem idx σ est acc = out →
      (∀ k : Nat, rem[k]? = metrics[idx + k]?) →
      gzipFooterSize ≤ est.bytesCommited →
      (∀ j ∈ out.dropped, ∃ s, metrics[j]? = some (some s)) ∧
      (∀ j ∈ out.failed, metrics[j]? = some none) ∧
      (match out.yielded with
       | some (r, ni) => ∃ w cov,
            r.itemIdxs = acc ++ w ∧
            r.Metrics = (acc ++ w).length ∧
            acc ++ w ≠ [] ∧
            (w ++ out.dropped ++ out.failed).Perm (List.range' idx cov) ∧
            (∀ j ∈ w, ∃ s, metrics[j]? = some (some s) ∧
              gzipFooterSize + growth s ≤ max) ∧
            cov ≤ rem.length ∧
            (ni = idx + cov ∨ (ni = idx + cov + 1 ∧ cov = rem.length))
       | none =>
            acc = [] ∧
            (out.dropped ++ out.failed).Perm (List.range' idx rem.length)) := by
  intro rem
  induction rem with
  | nil =>
      intro idx σ est acc out hout hget hC
      simp only [nextLoop] at hout
      split at hout <;> subst hout
      · rename_i hlen
        refine ⟨by simp, by simp, ⟨[], 0, by simp, by simp, ?_, by simp,
          by simp, by simp, Or.inr (by simp)⟩⟩
        simpa using List.ne_nil_of_length_pos hlen
      · rename_i hlen
        exact ⟨by simp, by simp, List.length_eq_zero.mp (by omega), by simp⟩
  | cons item rest ih =>
      intro idx σ est acc out hout hget hC
      have hget' : ∀ k : Nat, rest[k]? = metrics[idx + 1 + k]? := by
        intro k
        have h := hget (k + 1)
        rw [List.getElem?_cons_succ] at h
        rw [h]
        congr 1
        omega
      have hidx0 : metrics[idx]? = some item := by
        have h := hget 0
        rw [List.getElem?_cons_zero] at h
        simpa using h.symm
      match item with
      | none =>
          simp only [nextLoop] at hout
          subst hout
          obtain ⟨ihd, ihf, ihy⟩ := ih (idx + 1) σ est acc
            (nextLoop c max rest (idx + 1) σ est acc) rfl hget' hC
          refine ⟨ihd, ?_, ?_⟩
          · intro j hj
            simp only [List.mem_cons] at hj
            rcases hj with hj | hj
            · subst hj; exact hidx0
            · exact ihf j hj
          · simp only []
            cases hy : (nextLoop c max rest (idx + 1) σ est acc).yielded with
            | some p =>
                obtain ⟨r, ni⟩ := p
                rw [hy] at ihy
                obtain ⟨w, cov, h1, h2, h3, h4, h5, h6, h7⟩ := ihy
                refine ⟨w, cov + 1, h1, h2, h3, ?_, h5, by simp; omega, ?_⟩
                · have hmid : ((w ++ (nextLoop c max rest (idx + 1) σ est
                      acc).dropped) ++ idx :: (nextLoop c max rest (idx + 1)
                      σ est acc).failed).Perm
                      (idx :: ((w ++ (nextLoop c max rest (idx + 1) σ est
                        acc).dropped) ++ (nextLoop c max rest (idx + 1) σ est
                        acc).failed)) := List.perm_middle
                  refine hmid.trans ?_
                  exact h4.cons idx
                · rcases h7 with h7 | ⟨h7, h8⟩
                  · exact Or.inl (by omega)
                  · exact Or.inr ⟨by omega, by simp [h8]⟩
            | none =>
                rw [hy] at ihy
                obtain ⟨hacc, hperm⟩ := ihy
                refine ⟨hacc, ?_⟩
                have hmid : ((nextLoop c max rest (idx + 1) σ est
                    acc).dropped ++ idx :: (nextLoop c max rest (idx + 1) σ
                    est acc).failed).Perm
                    (idx :: ((nextLoop c max rest (idx + 1) σ est
                      acc).dropped ++ (nextLoop c max rest (idx + 1) σ est
                      acc).failed)) := List.perm_middle
                refine hmid.trans ?_
                exact hperm.cons idx
      | some bc =>
          simp only [nextLoop] at hout
          split at hout
          · rename_i hchk1
            split at hout
            · rename_i hchk2
              split at hout
              · -- empty record: drop the oversized item and continue
                rename_i hempty
                subst hout
                have hC2 : gzipFooterSize ≤
                    (est.Commit (c.flushedLen (c.flush σ))).bytesCommited := by
                  simp [gZipSizeEstimator.Commit]
                obtain ⟨ihd, ihf, ihy⟩ := ih (idx + 1) (c.flush σ)
                  (est.Commit (c.flushedLen (c.flush σ))) acc
                  (nextLoop c max rest (idx + 1) (c.flush σ)
                    (est.Commit (c.flushedLen (c.flush σ))) acc) rfl hget' hC2
                refine ⟨?_, ihf, ?_⟩
                · intro j hj
                  simp only [List.mem_cons] at hj
                  rcases hj with hj | hj
                  · subst hj; exact ⟨bc, hidx0⟩
                  · exact ihd j hj
                · simp only []
                  cases hy : (nextLoop c max rest (idx + 1) (c.flush σ)
                      (est.Commit (c.flushedLen (c.flush σ))) acc).yielded with
                  | some p =>
                      obtain ⟨r, ni⟩ := p
                      rw [hy] at ihy
                      obtain ⟨w, cov, h1, h2, h3, h4, h5, h6, h7⟩ := ihy
                      refine ⟨w, cov + 1, h1, h2, h3, ?_, h5, by simp; omega,
                        ?_⟩
                      · have hmid : (w ++ (idx :: (nextLoop c max rest
                            (idx + 1) (c.flush σ) (est.Commit (c.flushedLen
                            (c.flush σ))) acc).dropped)).Perm
                            (idx :: (w ++ (nextLoop c max rest (idx + 1)
                              (c.flush σ) (est.Commit (c.flushedLen (c.flush
                              σ))) acc).dropped)) := List.perm_middle
                        refine (hmid.append_right _).trans ?_
                        exact h4.cons idx
                      · rcases h7 with h7 | ⟨h7, h8⟩
                        · exact Or.inl (by omega)
                        · exact Or.inr ⟨by omega, by simp [h8]⟩
                  | none =>
                      rw [hy] at ihy
                      obtain ⟨hacc, hperm⟩ := ihy
                      exact ⟨hacc, hperm.cons idx⟩
              · -- yield the record built so far; retry this item next call
                rename_i hempty
                subst hout
                refine ⟨by simp, by simp, ⟨[], 0, by simp, by simp, ?_,
                  by simp, by simp, by simp, Or.inl (by simp)⟩⟩
                simpa using List.ne_nil_of_length_pos (by omega)
            · -- fits after the flush-and-commit: write
              rename_i hchk2
              have hfit : gzipFooterSize + growth bc ≤ max := by
                rw [maxPotentialSizeWith_eq] at hchk2
                simp only [gZipSizeEstimator.Commit, gzipFooterSize] at hchk2 ⊢
                simp only [Nat.zero_add] at hchk2
                omega
              have hC2 : gzipFooterSize ≤
                  ((est.Commit (c.flushedLen (c.flush σ))).RecordBytes
                    bc).bytesCommited := by
                simp [gZipSizeEstimator.Commit, gZipSizeEstimator.RecordBytes]
              obtain ⟨ihd, ihf, ihy⟩ := ih (idx + 1) (c.write (c.flush σ) bc)
                ((est.Commit (c.flushedLen (c.flush σ))).RecordBytes bc)
                (acc ++ [idx])
                (nextLoop c max rest (idx + 1) (c.write (c.flush σ) bc)
                  ((est.Commit (c.flushedLen (c.flush σ))).RecordBytes bc)
                  (acc ++ [idx])) rfl hget' hC2
              subst hout
              refine ⟨ihd, ihf, ?_⟩
              cases hy : (nextLoop c max rest (idx + 1) (c.write (c.flush σ)
                  bc) ((est.Commit (c.flushedLen (c.flush σ))).RecordBytes bc)
                  (acc ++ [idx])).yielded with
              | some p =>
                  obtain ⟨r, ni⟩ := p
                  rw [hy] at ihy
                  obtain ⟨w, cov, h1, h2, h3, h4, h5, h6, h7⟩ := ihy
                  refine ⟨idx :: w, cov + 1, by simpa using h1,
                    by simpa using h2, by simp, ?_, ?_, by simp; omega, ?_⟩
                  · exact h4.cons idx
                  · intro j hj
                    simp only [List.mem_cons] at hj
                    rcases hj with hj | hj
                    · subst hj; exact ⟨bc, hidx0, hfit⟩
                    · exact h5 j hj
                  · rcases h7 with h7 | ⟨h7, h8⟩
                    · exact Or.inl (by omega)
                    · exact Or.inr ⟨by omega, by simp [h8]⟩
              | none =>
                  rw [hy] at ihy
                  obtain ⟨hacc, _⟩ := ihy
                  exact absurd hacc (by simp)
          · -- fits immediately: write
            rename_i hchk1
            have hfit : gzipFooterSize + growth bc ≤ max := by
              rw [maxPotentialSizeWith_eq] at hchk1
              have hg := growth_mono (Nat.le_add_left bc est.bytesPending)
              simp only [gzipFooterSize] at hC ⊢
              omega
            have hC2 : gzipFooterSize ≤
                (est.RecordBytes bc).bytesCommited := by
              simpa [gZipSizeEstimator.RecordBytes] using hC
            obtain ⟨ihd, ihf, ihy⟩ := ih (idx + 1) (c.write σ bc)
              (est.RecordBytes bc) (acc ++ [idx])
              (nextLoop c max rest (idx + 1) (c.write σ bc)
                (est.RecordBytes bc) (acc ++ [idx])) rfl hget' hC2
            subst hout
            refine ⟨ihd, ihf, ?_⟩
            cases hy : (nextLoop c max rest (idx + 1) (c.write σ bc)
                (est.RecordBytes bc) (acc ++ [idx])).yielded with
            | some p =>
                obtain ⟨r, ni⟩ := p
                rw [hy] at ihy
                obtain ⟨w, cov, h1, h2, h3, h4, h5, h6, h7⟩ := ihy
                refine ⟨idx :: w, cov + 1, by simpa using h1,
                  by simpa using h2, by simp, ?_, ?_, by simp; omega, ?_⟩
                · exact h4.cons idx
                · intro j hj
                  simp only [List.mem_cons] at hj
                  rcases hj with hj | hj
                  · subst hj; exact ⟨bc, hidx0, hfit⟩
                  · exact h5 j hj
                · rcases h7 with h7 | ⟨h7, h8⟩
                  · exact Or.inl (by omega)
                  · exact Or.inr ⟨by omega, by simp [h8]⟩
            | none =>
                rw [hy] at ihy
                obtain ⟨hacc, _⟩ := ihy
                exact absurd hacc (by simp)

/-- Rearrangement of six concatenated lists used when composing one `Next`
call's classification with the classification of the remaining drain. -/
theorem perm_shuffle (w j2 d1 d2 f1 f2 : List Nat) :
    ((w ++ j2) ++ (d1 ++ d2) ++ (f1 ++ f2)).Perm
      ((w ++ d1 ++ f1) ++ (j2 ++ d2 ++ f2)) := by
  simp only [List.perm_iff_count, List.count_append]
  intro a
  omega

/-- Classification of a full drain: starting from any generator state (with
consistent `metricsCount` and enough fuel), the item indices folded into the
drained records, the dropped-as-oversized indices and the
serialization-failure indices together are a permutation of the index range
still to scan; counts are consistent and each class satisfies its per-item
fact. -/
theorem drainAux_classify (c : GZipWriterModel) :
    ∀ (fuel : Nat) (g : gzipKinesisRecordGenerator)
      (rs : List GenRecord) (d f : List Nat),
      g.metrics.length = g.metricsCount →
      g.metricsCount + 1 - g.index ≤ fuel →
      drainAux c fuel g = (rs, d, f) →
      (joinIdxs rs ++ d ++ f).Perm
        (List.range' g.index (g.metricsCount - g.index)) ∧
      (∀ r ∈ rs, r.Metrics = r.itemIdxs.length) ∧
      (∀ j ∈ d, ∃ s, g.metrics[j]? = some (some s)) ∧
      (∀ j ∈ f, g.metrics[j]? = some none) ∧
      (∀ j ∈ joinIdxs rs, ∃ s, g.metrics[j]? = some (some s) ∧
        gzipFooterSize + growth s ≤ g.maxRecordSize) := by
  intro fuel
  induction fuel with
  | zero =>
      intro g rs d f hlen hfuel hd
      simp only [drainAux] at hd
      simp only [Prod.mk.injEq] at hd
      obtain ⟨h1, h2, h3⟩ := hd
      subst h1; subst h2; subst h3
      have hidx : g.metricsCount - g.index = 0 := by omega
      rw [hidx]
      exact ⟨by simp [joinIdxs], by simp, by simp, by simp,
        by simp [joinIdxs]⟩
  | succ fuel ih =>
      intro g rs d f hlen hfuel hd
      by_cases hidx : g.index ≥ g.metricsCount
      · -- exhausted: index past the item count
        simp only [drainAux, gzipKinesisRecordGenerator.Next, if_pos hidx,
          NextRes.rec?, NextRes.dropped, NextRes.failed, Prod.mk.injEq]
          at hd
        obtain ⟨h1, h2, h3⟩ := hd
        subst h1; subst h2; subst h3
        have hz : g.metricsCount - g.index = 0 := by omega
        rw [hz]
        exact ⟨by simp [joinIdxs], by simp, by simp, by simp,
          by simp [joinIdxs]⟩
      · have hget : ∀ k : Nat,
            (g.metrics.drop g.index)[k]? = g.metrics[g.index + k]? :=
          fun k => List.getElem?_drop g.metrics g.index k
        have hC : gzipFooterSize ≤ createGZipSizeEstimator.bytesCommited := by
          simp [createGZipSizeEstimator, gzipHeaderSize, gzipFooterSize]
        have hdroplen : (g.metrics.drop g.index).length =
            g.metricsCount - g.index := by
          simp [hlen]
        obtain ⟨cld, clf, cly⟩ := nextLoop_classify c g.maxRecordSize
          g.metrics (g.metrics.drop g.index) g.index c.init
          createGZipSizeEstimator []
          (nextLoop c g.maxRecordSize (g.metrics.drop g.index) g.index
            c.init createGZipSizeEstimator []) rfl hget hC
        cases hy : (nextLoop c g.maxRecordSize (g.metrics.drop g.index)
            g.index c.init createGZipSizeEstimator []).yielded with
        | none =>
            rw [hy] at cly
            obtain ⟨_, hperm⟩ := cly
            simp only [drainAux, gzipKinesisRecordGenerator.Next,
              if_neg hidx, hy, NextRes.rec?, NextRes.dropped,
              NextRes.failed, Prod.mk.injEq] at hd
            obtain ⟨h1, h2, h3⟩ := hd
            subst h1; subst h2; subst h3
            rw [hdroplen] at hperm
            exact ⟨by simpa [joinIdxs] using hperm, by simp, cld, clf,
              by simp [joinIdxs]⟩
        | some p =>
            obtain ⟨r, ni⟩ := p
            rw [hy] at cly
            obtain ⟨w, cov, h1, h2, h3, h4, h5, h6, h7⟩ := cly
            simp only [List.nil_append] at h1 h2 h3
            rcases hp : drainAux c fuel
                { g with index := ni } with ⟨rs', d', f'⟩
            simp only [drainAux, gzipKinesisRecordGenerator.Next,
              if_neg hidx, hy, NextRes.rec?, NextRes.dropped,
              NextRes.failed, NextRes.st, hp, Prod.mk.injEq] at hd
            obtain ⟨e1, e2, e3⟩ := hd
            subst e1; subst e2; subst e3
            -- the yield consumed at least one item, so the index advanced
            have hcov : 0 < cov := by
              obtain ⟨j, hj⟩ := List.exists_mem_of_ne_nil w h3
              have hjr : j ∈ List.range' g.index cov :=
                h4.mem_iff.mp (by simp [hj])
              rcases List.mem_range'_1.mp hjr with ⟨_, hlt⟩
              omega
            have hni : g.index + 1 ≤ ni := by
              rcases h7 with h7 | ⟨h7, _⟩ <;> omega
            rw [hdroplen] at h6
            obtain ⟨ihperm, ihm, ihd, ihf, ihw⟩ := ih { g with index := ni }
              rs' d' f' hlen (by simp; omega) hp
            simp only [] at ihperm ihd ihf ihw
            refine ⟨?_, ?_, ?_, ?_, ?_⟩
            · -- the permutation, composing the call with the rest of drain
              have hjoin : joinIdxs (r :: rs') = w ++ joinIdxs rs' := by
                simp [joinIdxs, h1]
              rw [hjoin]
              refine (perm_shuffle w (joinIdxs rs')
                (nextLoop c g.maxRecordSize (g.metrics.drop g.index)
                  g.index c.init createGZipSizeEstimator []).dropped d'
                (nextLoop c g.maxRecordSize (g.metrics.drop g.index)
                  g.index c.init createGZipSizeEstimator []).failed
                f').trans ?_
              refine (h4.append ihperm).trans ?_
              rcases h7 with h7 | ⟨h7, h8⟩
              · have hra := List.range'_append g.index cov
                  (g.metricsCount - ni) 1
                simp only [Nat.one_mul, ← h7] at hra
                rw [hra]
                have heq : g.metricsCount - ni + cov =
                    g.metricsCount - g.index := by omega
                rw [heq]
              · have hni2 : g.metricsCount - ni = 0 := by omega
                rw [hni2]
                simp only [List.range'_zero, List.append_nil]
                rw [h8, hdroplen]
            · intro r' hr'
              simp only [List.mem_cons] at hr'
              rcases hr' with hr' | hr'
              · subst hr'
                rw [h1, h2]
              · exact ihm r' hr'
            · intro j hj
              rcases List.mem_append.mp hj with hj | hj
              · exact cld j hj
              · exact ihd j hj
            · intro j hj
              rcases List.mem_append.mp hj with hj | hj
              · exact clf j hj
              · exact ihf j hj
            · intro j hj
              have hj2 : j ∈ w ++ joinIdxs rs' := by
                simpa [joinIdxs, h1] using hj
              rcases List.mem_append.mp hj2 with hj' | hj'
              · exact h5 j hj'
              · exact ihw j hj'

/-- Per-index count of serialization failures over the scan range equals the
count of `none` entries of the item list. -/
theorem countP_none_range (ms : List (Option Nat)) :
    (List.range ms.length).countP (fun j => decide (ms[j]? = some none)) =
      ms.countP (fun o => o.isNone) := by
  induction ms with
  | nil => rfl
  | cons o t ih =>
      rw [List.length_cons, List.range_succ_eq_map]
      simp only [List.countP_cons, List.countP_map]
      have hcomp : ((fun j => decide ((o :: t)[j]? = some none)) ∘
          Nat.succ) = (fun j => decide (t[j]? = some none)) := by
        funext j
        simp
      rw [hcomp, ih]
      cases o <;> simp

/-- The `some` and `none` counts of an item list sum to its length. -/
theorem countP_some_add_none (ms : List (Option Nat)) :
    ms.countP (fun o => o.isSome) + ms.countP (fun o => o.isNone) =
      ms.length := by
  induction ms with
  | nil => rfl
  | cons o t ih => cases o <;> simp [List.countP_cons, ← ih] <;> omega

/-!
### Claim theorems
-/

/-- C1: for every compressor satisfying the worst-case-growth soundness
contract (the spec's invariant for the gzip format, quantifying over all
compressor behaviours within the documented bound, hence in particular over
incompressible input), every record yielded by `Next` has a compressed
payload of at most `maxRecordSize` bytes. -/
theorem claim_C1_payload_within_max (c : GZipWriterModel)
    (hs : SoundWriter c) (g : gzipKinesisRecordGenerator) (r : GenRecord)
    (h : (gzipKinesisRecordGenerator.Next c g).rec? = some r) :
    r.payloadLen ≤ g.maxRecordSize := by
  unfold gzipKinesisRecordGenerator.Next at h
  split at h
  · simp at h
  · rename_i hidx
    cases hout : (nextLoop c g.maxRecordSize (g.metrics.drop g.index)
        g.index c.init createGZipSizeEstimator []).yielded with
    | none => simp only [hout] at h; simp at h
    | some p =>
        obtain ⟨r', ni⟩ := p
        simp only [hout, Option.some.injEq] at h
        subst h
        refine nextLoop_payload_le c hs g.maxRecordSize
          (g.metrics.drop g.index) g.index c.init createGZipSizeEstimator []
          ?_ (fun hne => absurd rfl hne) r' ni hout
        exact hs.init_inv

/-- Witness for C1 on a concrete run: the zero-output compressor with a
single 1-byte item under `maxRecordSize = 100` yields one record, whose
payload length obeys the bound. -/
theorem claim_C1_payload_within_max_witness :
    (⟨0, 1, [0]⟩ : GenRecord).payloadLen ≤ 100 :=
  claim_C1_payload_within_max zeroWriter zeroWriter_sound
    (gzipKinesisRecordGenerator.Reset ⟨100, 0, 0, []⟩ [some 1])
    ⟨0, 1, [0]⟩ (by decide)

/-- C2: for every record source and positive limits `K = maxRecordsPerRequest`
and `S = maxRequestSize`, every batch the assembler submits to the delivery
capability contains at most `K` records, and the sum of its records'
`RequestSize` is at most `S` unless the batch is a single record whose own
request size alone exceeds `S` (submitted alone). -/
theorem claim_C2_batch_limits (cfg : BatchConfig) (deliver : DeliveryFn)
    (source : List (Except Unit kinesisRecord))
    (fl : List kinesisRecord) (tr : List (List kinesisRecord))
    (hK : 0 < cfg.maxRecordsPerRequest) (_hS : 0 < cfg.maxRequestSize)
    (h : putRecordBatches cfg deliver source = Except.ok (fl, tr)) :
    ∀ b ∈ tr, b.length ≤ cfg.maxRecordsPerRequest ∧
      (sumRequestSize b ≤ cfg.maxRequestSize ∨
        ∃ r, b = [r] ∧ cfg.maxRequestSize < r.RequestSize) :=
  putRecordBatchesLoop_batches cfg deliver source [] 0 0 fl tr rfl rfl hK
    (Or.inl (by simp [sumRequestSize])) h

/-- Witness for C2 on a concrete run: three records of sizes 3, 4, 5 with
`K = 2`, `S = 10` are submitted as `[[3,4],[5]]`; the first submitted batch
obeys both limits. -/
theorem claim_C2_batch_limits_witness :
    ([⟨1, 3⟩, ⟨1, 4⟩] : List kinesisRecord).length ≤ 2 ∧
      (sumRequestSize [⟨1, 3⟩, ⟨1, 4⟩] ≤ 10 ∨
        ∃ r, ([⟨1, 3⟩, ⟨1, 4⟩] : List kinesisRecord) = [r] ∧
          10 < r.RequestSize) :=
  claim_C2_batch_limits ⟨2, 10⟩ (fun _ => some [])
    (createKinesisRecordSet [⟨1, 3⟩, ⟨1, 4⟩, ⟨2, 5⟩])
    [] [[⟨1, 3⟩, ⟨1, 4⟩], [⟨2, 5⟩]] (by decide) (by decide) (by rfl)
    [⟨1, 3⟩, ⟨1, 4⟩] (by decide)

/-- C10: for every record source drained without an iterator error, every
record pulled from the source is placed into exactly one batch passed to the
delivery call in pull order (the submitted batches concatenate to the source
records), and the returned failed list is exactly the concatenation of the
per-batch failed results. -/
theorem claim_C10_assembler_partition (cfg : BatchConfig)
    (deliver : DeliveryFn) (records : List kinesisRecord)
    (fl : List kinesisRecord) (tr : List (List kinesisRecord))
    (h : putRecordBatches cfg deliver (createKinesisRecordSet records) =
      Except.ok (fl, tr)) :
    tr.flatten = records ∧ fl = (tr.map (putRecords deliver)).flatten := by
  obtain ⟨h1, h2⟩ :=
    putRecordBatchesLoop_ok cfg deliver (createKinesisRecordSet records)
      [] 0 0 fl tr rfl h
  refine ⟨?_, h1⟩
  rw [h2]
  simpa [createKinesisRecordSet] using
    filterMap_toOption_map_ok records

/-- Witness for C10 on a concrete run: two records batched together. -/
theorem claim_C10_assembler_partition_witness :
    ([[⟨1, 3⟩, ⟨1, 4⟩]] : List (List kinesisRecord)).flatten =
        [⟨1, 3⟩, ⟨1, 4⟩] ∧
      ([] : List kinesisRecord) =
        (([[⟨1, 3⟩, ⟨1, 4⟩]] : List (List kinesisRecord)).map
          (putRecords (fun _ => some []))).flatten :=
  claim_C10_assembler_partition ⟨2, 10⟩ (fun _ => some [])
    [⟨1, 3⟩, ⟨1, 4⟩] [] [[⟨1, 3⟩, ⟨1, 4⟩]] (by rfl)

/-- C4: for every item sequence loaded via `Reset`, the drained records'
`Metrics` counts plus the number of items dropped as oversized account for
exactly the items that serialized successfully, and the records' item
indices together with the dropped and serialization-failed indices are a
partition (a permutation of the index range), so each surviving item is
folded into exactly one record. -/
theorem claim_C4_partition_counts (c : GZipWriterModel)
    (g0 : gzipKinesisRecordGenerator) (ms : List (Option Nat)) :
    sumGenMetrics (drain c (g0.Reset ms)).1 +
        ((drain c (g0.Reset ms)).2.1).length =
      ms.countP (fun o => o.isSome) ∧
    (joinIdxs (drain c (g0.Reset ms)).1 ++ (drain c (g0.Reset ms)).2.1 ++
        (drain c (g0.Reset ms)).2.2).Perm (List.range ms.length) := by
  rcases hdr : drain c (g0.Reset ms) with ⟨rs, d, f⟩
  obtain ⟨hperm, hm, hd, hf, hw⟩ := drainAux_classify c
    ((g0.Reset ms).metricsCount + 1 - (g0.Reset ms).index) (g0.Reset ms)
    rs d f (by simp [gzipKinesisRecordGenerator.Reset]) (le_refl _) hdr
  simp only [gzipKinesisRecordGenerator.Reset, Nat.sub_zero] at hperm hd hf hw
  rw [← List.range_eq_range'] at hperm
  have hsum : sumGenMetrics rs = (joinIdxs rs).length := by
    have hmap : rs.map (fun r => r.Metrics) =
        rs.map (fun r => r.itemIdxs.length) :=
      List.map_congr_left hm
    rw [sumGenMetrics, hmap, joinIdxs, List.length_flatten, List.map_map]
    rfl
  have hlen : (joinIdxs rs).length + d.length + f.length = ms.length := by
    have := hperm.length_eq
    simp only [List.length_append, List.length_range] at this
    omega
  have hcnt := hperm.countP_eq (fun j => decide (ms[j]? = some none))
  rw [countP_none_range] at hcnt
  have hjoin0 : (joinIdxs rs).countP
      (fun j => decide (ms[j]? = some none)) = 0 := by
    refine List.countP_eq_zero.mpr ?_
    intro j hj
    obtain ⟨s, hs, _⟩ := hw j hj
    simp [hs]
  have hd0 : d.countP (fun j => decide (ms[j]? = some none)) = 0 := by
    refine List.countP_eq_zero.mpr ?_
    intro j hj
    obtain ⟨s, hs⟩ := hd j hj
    simp [hs]
  have hfl : f.countP (fun j => decide (ms[j]? = some none)) = f.length := by
    refine List.countP_eq_length.mpr ?_
    intro j hj
    simp [hf j hj]
  rw [List.countP_append, List.countP_append, hjoin0, hd0, hfl] at hcnt
  have htot := countP_some_add_none ms
  constructor
  · show sumGenMetrics rs + d.length = _
    rw [hsum]
    omega
  · exact hperm

/-- C6: an item whose serialized size cannot fit within `maxRecordSize` even
as the first item of an empty record (its size bound exceeds the budget for
every possible committed length) is dropped, appears in no yielded record,
and does not stop the remaining items from being classified: the whole index
range is still partitioned. -/
theorem claim_C6_oversized_dropped (c : GZipWriterModel)
    (g0 : gzipKinesisRecordGenerator) (ms : List (Option Nat))
    (i s : Nat) (hi : ms[i]? = some (some s))
    (hbig : g0.maxRecordSize < gzipFooterSize + growth s) :
    i ∈ (drain c (g0.Reset ms)).2.1 ∧
      (∀ r ∈ (drain c (g0.Reset ms)).1, i ∉ r.itemIdxs) ∧
      (joinIdxs (drain c (g0.Reset ms)).1 ++ (drain c (g0.Reset ms)).2.1 ++
        (drain c (g0.Reset ms)).2.2).Perm (List.range ms.length) := by
  rcases hdr : drain c (g0.Reset ms) with ⟨rs, d, f⟩
  obtain ⟨hperm, hm, hd, hf, hw⟩ := drainAux_classify c
    ((g0.Reset ms).metricsCount + 1 - (g0.Reset ms).index) (g0.Reset ms)
    rs d f (by simp [gzipKinesisRecordGenerator.Reset]) (le_refl _) hdr
  simp only [gzipKinesisRecordGenerator.Reset, Nat.sub_zero] at hperm hd hf hw
  rw [← List.range_eq_range'] at hperm
  have hilen : i < ms.length := by
    by_contra hcon
    rw [List.getElem?_eq_none (by omega)] at hi
    exact absurd hi (by simp)
  have hnotw : i ∉ joinIdxs rs := by
    intro hmem
    obtain ⟨s', hs', hfit⟩ := hw i hmem
    rw [hi] at hs'
    obtain rfl : s = s' := by simpa using hs'
    omega
  have hmem : i ∈ joinIdxs rs ++ d ++ f :=
    hperm.mem_iff.mpr (List.mem_range.mpr hilen)
  have hin : i ∈ d := by
    rcases List.mem_append.mp hmem with hmem | hmem
    · rcases List.mem_append.mp hmem with hmem | hmem
      · exact absurd hmem hnotw
      · exact hmem
    · have := hf i hmem
      rw [hi] at this
      simp at this
  refine ⟨hin, ?_, hperm⟩
  intro r hr hmem'
  exact hnotw (List.mem_flatten.mpr ⟨r.itemIdxs,
    List.mem_map_of_mem _ hr, hmem'⟩)

/-- Witness for C6 on a concrete run: with `maxRecordSize = 20`, the item of
serialized size 10 (bound `8 + growth 10 = 23 > 20`) is dropped while the
following 1-byte item is still yielded. -/
theorem claim_C6_oversized_dropped_witness :
    (0 : Nat) ∈ (drain zeroWriter
      (gzipKinesisRecordGenerator.Reset ⟨20, 0, 0, []⟩
        [some 10, some 1])).2.1 :=
  (claim_C6_oversized_dropped zeroWriter ⟨20, 0, 0, []⟩ [some 10, some 1]
    0 10 (by decide) (by decide)).1

/-- C5: for every batch whose delivery call fails with a transport-level
error, every record of that batch ends up in the failed-record accumulator,
and the assembler still drains the rest of the source (every source record
is still batched). -/
theorem claim_C5_transport_error_fails_batch (cfg : BatchConfig)
    (deliver : DeliveryFn) (source : List (Except Unit kinesisRecord))
    (fl : List kinesisRecord) (tr : List (List kinesisRecord))
    (b : List kinesisRecord)
    (h : putRecordBatches cfg deliver source = Except.ok (fl, tr))
    (hb : b ∈ tr) (he : deliver b = none) :
    (∀ r ∈ b, r ∈ fl) ∧
      tr.flatten = source.filterMap (fun e => e.toOption) := by
  obtain ⟨h1, h2⟩ :=
    putRecordBatchesLoop_ok cfg deliver source [] 0 0 fl tr rfl h
  constructor
  · intro r hr
    rw [h1]
    have hput : putRecords deliver b = b := by simp [putRecords, he]
    exact List.mem_flatten.mpr
      ⟨putRecords deliver b, List.mem_map_of_mem _ hb, by rw [hput]; exact hr⟩
  · simpa using h2

/-- Witness for C5 on a concrete run: a delivery capability that always
fails at the transport level leaves both records of the only batch in the
failed list. -/
theorem claim_C5_transport_error_fails_batch_witness :
    ((⟨1, 3⟩ : kinesisRecord) ∈ ([⟨1, 3⟩, ⟨1, 4⟩] : List kinesisRecord)) ∧
      ((⟨1, 4⟩ : kinesisRecord) ∈ ([⟨1, 3⟩, ⟨1, 4⟩] : List kinesisRecord)) :=
  ⟨(claim_C5_transport_error_fails_batch ⟨2, 10⟩ (fun _ => none)
      (createKinesisRecordSet [⟨1, 3⟩, ⟨1, 4⟩]) [⟨1, 3⟩, ⟨1, 4⟩]
      [[⟨1, 3⟩, ⟨1, 4⟩]] [⟨1, 3⟩, ⟨1, 4⟩] (by rfl) (by decide) (by rfl)).1
      ⟨1, 3⟩ (by decide),
    (claim_C5_transport_error_fails_batch ⟨2, 10⟩ (fun _ => none)
      (createKinesisRecordSet [⟨1, 3⟩, ⟨1, 4⟩]) [⟨1, 3⟩, ⟨1, 4⟩]
      [[⟨1, 3⟩, ⟨1, 4⟩]] [⟨1, 3⟩, ⟨1, 4⟩] (by rfl) (by decide) (by rfl)).1
      ⟨1, 4⟩ (by decide)⟩

/-- C3: whenever the failed-record list is still non-empty at the point
where the attempt counter exceeds `maxRetries`, the retry loop stops,
reports exactly one terminal diagnostic whose dropped count is the sum of
the `Metrics` fields of the remaining failed records, and returns success
(no error); moreover no run of the loop ever emits more than one terminal
report. -/
theorem claim_C3_retry_drop_terminal (cfg : BatchConfig)
    (deliver : DeliveryFn) (maxRetries : Nat)
    (source : List (Except Unit kinesisRecord)) (attempt : Nat)
    (F : List kinesisRecord) (tr : List (List kinesisRecord))
    (h : putRecordBatches cfg deliver source = Except.ok (F, tr))
    (hne : F ≠ []) (hatt : maxRetries < attempt + 1) :
    retryLoop cfg deliver maxRetries source attempt =
      (Except.ok (), [⟨F.length, attempt + 1, sumMetrics F⟩]) ∧
    ∀ (src : List (Except Unit kinesisRecord)) (att : Nat),
      ((retryLoop cfg deliver maxRetries src att).2).length ≤ 1 := by
  constructor
  · unfold retryLoop
    rw [h]
    have hlen : ¬ F.length = 0 := by simpa using hne
    simp [hlen, hatt]
  · exact retryLoop_reports_le_one cfg deliver maxRetries

/-- Witness for C3 on a concrete run: one record of 3 metrics failing at the
transport level with `maxRetries = 0` is dropped with a single terminal
report of 3 dropped metrics and a success result. -/
theorem claim_C3_retry_drop_terminal_witness :
    retryLoop ⟨2, 10⟩ (fun _ => none) 0
        (createKinesisRecordSet [⟨3, 3⟩]) 0 =
      (Except.ok (), [⟨1, 1, 3⟩]) :=
  (claim_C3_retry_drop_terminal ⟨2, 10⟩ (fun _ => none) 0
    (createKinesisRecordSet [⟨3, 3⟩]) 0 [⟨3, 3⟩] [[⟨3, 3⟩]]
    (by rfl) (by decide) (by decide)).1

/-- C7, counterexample: the claim "the delivery capability is never invoked
with an empty batch" fails on the code.  With `maxRequestSize = 5` and a
single source record of request size 6 arriving at the (empty) initial
batch, the size-limit branch submits the current batch unconditionally, so
`putRecords` is invoked first with the empty batch `[]` and then with the
record alone: the submitted-batch trace is `[[], [record]]`. -/
theorem claim_C7_counterexample :
    putRecordBatches ⟨500, 5⟩ (fun _ => some [])
        (createKinesisRecordSet [⟨1, 6⟩]) =
      Except.ok ([], [[], [⟨1, 6⟩]]) := by rfl

/-- C7, amended: the size-limit branch submits the current batch even when
it is empty, which happens exactly when a record whose own request size
exceeds `maxRequestSize` arrives on an empty batch; provided every source
record's request size is at most `maxRequestSize`, the delivery capability
is never invoked with an empty batch. -/
theorem claim_C7_amended_no_empty_batch (cfg : BatchConfig)
    (deliver : DeliveryFn) (source : List (Except Unit kinesisRecord))
    (fl : List kinesisRecord) (tr : List (List kinesisRecord))
    (hfit : ∀ e ∈ source, ∀ r : kinesisRecord, e = Except.ok r →
      r.RequestSize ≤ cfg.maxRequestSize)
    (h : putRecordBatches cfg deliver source = Except.ok (fl, tr)) :
    ∀ b ∈ tr, b ≠ [] :=
  putRecordBatchesLoop_nonempty cfg deliver source [] 0 0 fl tr rfl
    (fun _ => rfl) hfit h

/-- Witness for the amended C7 on a concrete run: a fitting record is
submitted in a non-empty batch. -/
theorem claim_C7_amended_no_empty_batch_witness :
    ([⟨1, 3⟩] : List kinesisRecord) ≠ [] :=
  claim_C7_amended_no_empty_batch ⟨2, 10⟩ (fun _ => some [])
    (createKinesisRecordSet [⟨1, 3⟩]) [] [[⟨1, 3⟩]]
    (by
      intro e he r her
      simp only [createKinesisRecordSet, List.map_cons, List.map_nil,
        List.mem_singleton] at he
      subst he
      injection her with h2
      rw [← h2]
      decide)
    (by rfl) [⟨1, 3⟩] (by decide)

/-- C8: `MaxPotentialSizeWith(additionalBytes)` returns
`committedBytes + (pendingBytes + additionalBytes)` plus 5 bytes of block
overhead per started 16383-byte block of the pending-plus-new raw bytes,
with the block count written as the floor of the exact real quotient (the
`math.Floor` of the Go source). -/
theorem claim_C8_max_potential_size (e : gZipSizeEstimator) (a : Nat) :
    e.MaxPotentialSizeWith a =
      e.bytesCommited + (e.bytesPending + a) +
        5 * (⌊(((e.bytesPending + a : Nat) : ℚ)) / 16383⌋₊ + 1) := by
  have hfloor : (⌊(((e.bytesPending + a : Nat) : ℚ)) / 16383⌋₊ : Nat) =
      (e.bytesPending + a) / 16383 := by
    rw [show (16383 : ℚ) = ((16383 : Nat) : ℚ) by norm_num]
    rw [Nat.floor_div_nat]
    rw [Nat.floor_natCast]
  rw [hfloor]
  simp [gZipSizeEstimator.MaxPotentialSizeWith]

/-- C9: after `Reset` with an empty item list, the first `Next` call returns
the end-marker, leaves the generator state unchanged, and so does every
subsequent call (idempotent exhaustion). -/
theorem claim_C9_empty_reset_end_marker (c : GZipWriterModel)
    (g : gzipKinesisRecordGenerator) :
    (gzipKinesisRecordGenerator.Next c (g.Reset [])).rec? = none ∧
      (gzipKinesisRecordGenerator.Next c (g.Reset [])).st = g.Reset [] ∧
      (gzipKinesisRecordGenerator.Next c
        ((gzipKinesisRecordGenerator.Next c (g.Reset [])).st)).rec? =
        none := by
  simp [gzipKinesisRecordGenerator.Next, gzipKinesisRecordGenerator.Reset]

end D2LKinesis
